import Mathlib

/-!
Verification of the reactor-c core runtime headers against their
natural-language specification.

The repository under verification ships three headers:
`include/api/schedule.h`, `include/core/reactor.h`, `include/core/trace.h`.
The concrete code they contain are the C preprocessor macros of
`reactor.h` (`_LF_SET`, `_LF_SET_ARRAY`, `_LF_SET_TOKEN`, `DEADLINE`,
`OVERLAPPING`); those are embedded below directly from the source.
The schedule functions (`lf_schedule_token` and relatives) and the
scheduler loop (`_lf_pop_events`) are only declared in the headers, so
their bodies are modelled from the specification document, as recorded
in each definition's doc comment.
-/

namespace ReactorC

/-! ## Tag arithmetic (spec section 4.1) -/

/-- Modelled from the spec: the sentinel `FOREVER = INT64_MAX`. All time
instants and intervals are signed 64-bit nanoseconds, modelled as `Int`. -/
def FOREVER : Int := 2 ^ 63 - 1

/-- A tag `(time, microstep)`, the ordering coordinate for all events. -/
structure Tag where
  time : Int
  microstep : Nat
deriving DecidableEq, Repr

/-- Lexicographic comparison of tags as a Bool (`a ≤ b`). -/
def tagLeB (a b : Tag) : Bool :=
  a.time < b.time || (a.time = b.time && a.microstep ≤ b.microstep)

/-- Lexicographic strict comparison of tags as a Bool (`a < b`). -/
def tagLtB (a b : Tag) : Bool :=
  a.time < b.time || (a.time = b.time && a.microstep < b.microstep)

/-- Modelled from the spec: time addition "clamps time at INT64_MAX". -/
def satAdd (t : Int) (i : Int) : Int := min (t + i) FOREVER

/-- Modelled from the spec: `tag_add(tag, interval)`, saturating; a zero
interval added to a tag yields `(time, microstep+1)` (spec section 3). -/
def tag_add (t : Tag) (i : Int) : Tag :=
  if i = 0 then ⟨t.time, t.microstep + 1⟩ else ⟨satAdd t.time i, 0⟩

/-- Modelled from the spec: `tag_delay(tag, delay)` returns
`(tag.time + delay, 0)` if `delay > 0` else `(tag.time, tag.microstep+1)`;
the time addition clamps at INT64_MAX (spec sections 3 and 4.1). -/
def tag_delay (t : Tag) (d : Int) : Tag :=
  if 0 < d then ⟨satAdd t.time d, 0⟩ else ⟨t.time, t.microstep + 1⟩

/-! ## Reaction priority index and chains (reactor.h macros) -/

/-- Embedded from `reactor.h`:
`#define DEADLINE(index) (index & 0x7FFFFFFFFFFF0000)`.
The index is a 64-bit unsigned integer, modelled as a `Nat` below `2^64`. -/
def DEADLINE (index : Nat) : Nat := Nat.land index 0x7FFFFFFFFFFF0000

/-- The composite priority index `(deadline << 16) | level` described by the
spec, truncated to the 64-bit `index_t` it is stored in. -/
def reactionIndex (deadline level : Nat) : Nat :=
  (Nat.lor (deadline <<< 16) level) % 2 ^ 64

/-- Embedded from `reactor.h`:
`#define OVERLAPPING(chain1, chain2) ((chain1 & chain2) != 0)`. -/
def OVERLAPPING (chain1 chain2 : Nat) : Bool :=
  decide (Nat.land chain1 chain2 ≠ 0)

/-! ## Theorems for claims C6 and C10 -/

/-- Claim C10: the chain-overlap check is symmetric, and a `chain_id` of 0
overlaps nothing, not even itself. -/
theorem overlapping_symm_and_zero :
    (∀ c1 c2 : Nat, OVERLAPPING c1 c2 = OVERLAPPING c2 c1) ∧
    (∀ c : Nat, OVERLAPPING 0 c = false) := by
  constructor
  · intro c1 c2
    unfold OVERLAPPING
    have h : Nat.land c1 c2 = Nat.land c2 c1 := Nat.land_comm c1 c2
    rw [h]
  · intro c
    unfold OVERLAPPING
    have h : Nat.land 0 c = 0 := Nat.zero_and c
    rw [h]
    decide

/-- Claim C6 (counterexample): the claim "for every deadline value and every
level < 2^16, `DEADLINE((deadline << 16) | level) = deadline << 16`" fails
at `deadline = 2^47, level = 0`: the mask `0x7FFFFFFFFFFF0000` keeps only 47
deadline bits (bits 16..62), so bit 63 of the shifted deadline is lost. -/
theorem deadline_extract_counterexample :
    DEADLINE (reactionIndex (2 ^ 47) 0) = 0 ∧ (2 ^ 47 : Nat) <<< 16 ≠ 0 := by
  constructor
  · decide
  · decide

/-- Claim C6 (amended): the composite index is `(deadline << 16) | level`, and
for every deadline below `2^47` (so that the shifted deadline stays within the
mask bits 16..62) and every level below `2^16`, the `DEADLINE` macro recovers
exactly the shifted deadline field. -/
theorem deadline_extract (d l : Nat) (hd : d < 2 ^ 47) (hl : l < 2 ^ 16) :
    DEADLINE (reactionIndex d l) = d <<< 16 := by
  have hmask : (0x7FFFFFFFFFFF0000 : Nat) = (2 ^ 47 - 1) <<< 16 := by decide
  unfold DEADLINE reactionIndex
  have hland : ∀ a b : Nat, Nat.land a b = a &&& b := fun _ _ => rfl
  have hlor : ∀ a b : Nat, Nat.lor a b = a ||| b := fun _ _ => rfl
  rw [hland, hlor, hmask]
  apply Nat.eq_of_testBit_eq
  intro i
  simp only [Nat.testBit_and, Nat.testBit_or, Nat.testBit_shiftLeft,
    Nat.testBit_mod_two_pow, Nat.testBit_two_pow_sub_one]
  by_cases h16 : 16 ≤ i
  · by_cases h63 : i < 63
    · have hi64 : i < 64 := by omega
      have hl2 : l < 2 ^ i := lt_of_lt_of_le hl (Nat.pow_le_pow_right (by omega) h16)
      simp [h16, h63, hi64, Nat.testBit_lt_two_pow hl2, show i - 16 < 47 by omega]
    · have hd2 : d < 2 ^ (i - 16) := lt_of_lt_of_le hd (Nat.pow_le_pow_right (by omega) (by omega))
      simp [Nat.testBit_lt_two_pow hd2, show ¬ (i - 16 < 47) by omega]
  · simp [h16]

/-- Claim C6 (witness): the amended theorem applied at concrete inputs. -/
theorem deadline_extract_witness :
    DEADLINE (reactionIndex 3 5) = 3 <<< 16 :=
  deadline_extract 3 5 (by decide) (by decide)

/-! ## Tokens and ports (reactor.h port-setter macros) -/

/-- The `ok_to_free` ownership tag of a token (spec section 3). -/
inductive OkToFree where
  | no
  | token_only
  | token_and_value
deriving DecidableEq, Repr

/-- A reference-counted payload token. The opaque `value` pointer is not
modelled; the destructor and copy constructor are modelled as presence
flags, which is all the port-setter macros observe. -/
structure Token where
  ref_count : Nat
  length : Nat
  ok_to_free : OkToFree
  hasDestructor : Bool
  hasCopyCtor : Bool
deriving DecidableEq, Repr

/-- A port. The backing `value` cell is not modelled; `num_destinations`,
the token pointer, the `is_present` flag and the optional destructor and
copy constructor are. -/
structure Port where
  num_destinations : Nat
  token : Option Token
  is_present : Bool
  hasDestructor : Bool
  hasCopyCtor : Bool
deriving DecidableEq, Repr

/-- Modelled from the spec: `_lf_initialize_token_with_value(token, value,
length)` is only declared in `reactor.h`; per spec section 4.2 it "may reuse
or allocate" a token and stores the value and length in it. -/
def _lf_initialize_token_with_value (tok : Option Token) (length : Nat) : Token :=
  match tok with
  | some t => { t with length := length }
  | none => { ref_count := 0, length := length, ok_to_free := OkToFree.no,
              hasDestructor := false, hasCopyCtor := false }

/-- Embedded from the `_LF_SET` macro of `reactor.h`: mark the port present;
if the port has a token, reinitialize it with the new value (length 1), set
`ref_count = num_destinations`, set `ok_to_free = token_and_value`, and copy
the port's destructor and copy constructor into the token if set. -/
def _LF_SET (out : Port) : Port :=
  match out.token with
  | none => { out with is_present := true }
  | some t =>
    let token := _lf_initialize_token_with_value (some t) 1
    let token := { token with ref_count := out.num_destinations,
                              ok_to_free := OkToFree.token_and_value }
    let token := if out.hasDestructor then { token with hasDestructor := true } else token
    let token := if out.hasCopyCtor then { token with hasCopyCtor := true } else token
    { out with is_present := true, token := some token }

/-- Embedded from the `_LF_SET_ARRAY` macro of `reactor.h`: mark the port
present, initialize a token with the array value and length, and set
`ref_count = num_destinations`. -/
def _LF_SET_ARRAY (out : Port) (length : Nat) : Port :=
  let token := _lf_initialize_token_with_value out.token length
  { out with is_present := true,
             token := some { token with ref_count := out.num_destinations } }

/-- Embedded from the `_LF_SET_TOKEN` macro of `reactor.h`: mark the port
present, install the forwarded token, and execute
`newtoken->ref_count += out->num_destinations`. -/
def _LF_SET_TOKEN (out : Port) (newtoken : Token) : Port :=
  { out with is_present := true,
             token := some { newtoken with
                             ref_count := newtoken.ref_count + out.num_destinations } }

/-- Claim C7 (counterexample): the claim that every port setter initializes
the token's `ref_count` to exactly `num_destinations` fails for
`_LF_SET_TOKEN`: forwarding a token whose `ref_count` is already 1 through a
port with `num_destinations = 2` leaves `ref_count = 3`, not 2. -/
theorem ref_count_init_counterexample :
    ((_LF_SET_TOKEN ⟨2, none, false, false, false⟩
        ⟨1, 1, OkToFree.no, false, false⟩).token.map Token.ref_count = some 3) ∧
    (Port.num_destinations ⟨2, none, false, false, false⟩ = 2) ∧ (3 : Nat) ≠ 2 := by
  decide

/-- Claim C7 (amended): `_LF_SET` (when the port carries a token) and
`_LF_SET_ARRAY` initialize the associated token's `ref_count` to exactly the
port's `num_destinations`; the token-forwarding setter `_LF_SET_TOKEN`
instead adds `num_destinations` to the forwarded token's existing
`ref_count`, so its count equals `num_destinations` only when the prior
count was zero. -/
theorem ref_count_init (p : Port) (t tnew : Token) (len : Nat)
    (h : p.token = some t) :
    ((_LF_SET p).token.map Token.ref_count = some p.num_destinations) ∧
    ((_LF_SET_ARRAY p len).token.map Token.ref_count = some p.num_destinations) ∧
    ((_LF_SET_TOKEN p tnew).token.map Token.ref_count
       = some (tnew.ref_count + p.num_destinations)) := by
  refine ⟨?_, rfl, rfl⟩
  unfold _LF_SET
  rw [h]
  by_cases hd : p.hasDestructor <;> by_cases hc : p.hasCopyCtor <;>
    simp [hd, hc, _lf_initialize_token_with_value]

/-- Claim C7 (witness): the amended theorem applied at concrete inputs. -/
theorem ref_count_init_witness :
    ((_LF_SET ⟨4, some ⟨7, 1, OkToFree.no, false, false⟩, false, true, false⟩).token.map
        Token.ref_count = some 4) ∧
    ((_LF_SET_ARRAY ⟨4, some ⟨7, 1, OkToFree.no, false, false⟩, false, true, false⟩ 3).token.map
        Token.ref_count = some 4) ∧
    ((_LF_SET_TOKEN ⟨4, some ⟨7, 1, OkToFree.no, false, false⟩, false, true, false⟩
        ⟨2, 1, OkToFree.no, false, false⟩).token.map Token.ref_count = some (2 + 4)) :=
  ref_count_init ⟨4, some ⟨7, 1, OkToFree.no, false, false⟩, false, true, false⟩
    ⟨7, 1, OkToFree.no, false, false⟩ ⟨2, 1, OkToFree.no, false, false⟩ 3 rfl

/-! ## Action scheduling (spec section 4.4)

`lf_schedule_token` and `_lf_schedule` are declared in `schedule.h` and
`reactor.h` with detailed doc comments but their bodies are not part of the
repository sources; the functions below are modelled from the specification
(sections 4.1, 4.4 and 7) and the header doc comments. -/

/-- The MIT policy of an action (spec section 3). -/
inductive Policy where
  | DROP
  | DEFER
  | REPLACE
deriving DecidableEq, Repr

/-- Modelled from the spec: the trigger descriptor attributes that the
schedule path reads: `offset` (minimum delay), `mit`, `policy`, the
logical/physical kind, and `last_tag` (tag of most recent scheduling,
absent before the first one). -/
structure Trigger where
  id : Nat
  offset : Int
  mit : Int
  policy : Policy
  isPhysical : Bool
  last_tag : Option Tag
deriving DecidableEq, Repr

/-- An event-queue entry: the triggering action and the release tag. -/
structure Event where
  trigId : Nat
  tag : Tag
deriving DecidableEq, Repr

/-- Modelled from the spec: the environment state the schedule path reads
and writes: current logical tag, current physical time, whether the caller
is a reaction, the stop state, the event queue, and the monotonic handle
counter. -/
structure Env where
  currentTag : Tag
  physicalNow : Int
  fromReaction : Bool
  stop_requested : Bool
  stop_tag : Tag
  queue : List Event
  nextHandle : Nat
deriving DecidableEq, Repr

/-- The outcome of a schedule call: the returned handle, the updated
environment, the updated trigger (its `last_tag` may move), and whether the
supplied token's reference count was decremented. -/
structure SchedResult where
  handle : Int
  env : Env
  trig : Option Trigger
  tokenUnref : Bool
deriving DecidableEq, Repr

/-- Modelled from the spec (section 4.4 step 2): the base tag is the current
logical tag when the calling context is a reaction, else physical time. -/
def baseTag (env : Env) : Tag :=
  if env.fromReaction then env.currentTag else ⟨env.physicalNow, 0⟩

/-- Modelled from the spec (section 4.4 step 3):
`intended_tag = tag_delay(base, trigger.offset + extra_delay)`; for physical
actions `intended_tag.time = max(intended_tag.time, physical_now())`,
microstep 0. -/
def intendedTag (env : Env) (tr : Trigger) (extra : Int) : Tag :=
  if tr.isPhysical then
    ⟨max (tag_delay (baseTag env) (tr.offset + extra)).time env.physicalNow, 0⟩
  else tag_delay (baseTag env) (tr.offset + extra)

/-- Modelled from the spec (section 4.4 step 4): the MIT is satisfied when
`intended_tag - last_tag ≥ mit` (tag difference taken on the time field), or
when the action was never scheduled before. -/
def mitOK (tr : Trigger) (intended : Tag) : Bool :=
  match tr.last_tag with
  | none => true
  | some l => decide (tr.mit ≤ intended.time - l.time)

/-- Modelled from the spec (section 4.4 step 4, DEFER):
`intended_tag = tag_add(last_tag, mit)`. -/
def deferTag (tr : Trigger) (intended : Tag) : Tag :=
  match tr.last_tag with
  | none => intended
  | some l => tag_add l tr.mit

/-- Modelled from the spec (section 4.4 step 4, REPLACE): whether a pending
event for this trigger sits in the queue at `last_tag`. -/
def hasPending (q : List Event) (tr : Trigger) : Bool :=
  match tr.last_tag with
  | none => false
  | some l => q.any fun e => decide (e.trigId = tr.id) && decide (e.tag = l)

/-- Modelled from the spec (section 4.4 steps 1 and 5): accept an event at
tag `t` unless the computed tag exceeds `stop_tag` (clean rejection: handle
0, token unref); on acceptance update `last_tag`, push the event, and return
a positive monotonic handle. -/
def acceptAt (env : Env) (tr : Trigger) (t : Tag) (hasToken : Bool) : SchedResult :=
  if tagLtB env.stop_tag t then ⟨0, env, some tr, hasToken⟩
  else ⟨(env.nextHandle : Int) + 1,
        { env with queue := env.queue ++ [⟨tr.id, t⟩], nextHandle := env.nextHandle + 1 },
        some { tr with last_tag := some t }, false⟩

/-- Modelled from the spec (section 4.4) and the `lf_schedule_token` doc
comment in `schedule.h`: fail fast on a null trigger or on stop requested
with positive extra delay (handle 0, token unref); otherwise compute the
intended tag and enforce the MIT: accept when satisfied, on DROP reject
(handle 0, token unref), on DEFER accept at `tag_add(last_tag, mit)`, on
REPLACE swap the token of the pending event at `last_tag` (positive handle,
token not unref) or, if none is pending, behave as DROP. Acceptance checks
the computed tag against `stop_tag` (see `acceptAt`). The supplied token is
modelled by whether one is present (`hasToken`). -/
def lf_schedule_token (env : Env) (otr : Option Trigger) (extra : Int)
    (hasToken : Bool) : SchedResult :=
  match otr with
  | none => ⟨0, env, none, hasToken⟩
  | some tr =>
    if env.stop_requested && decide (0 < extra) then ⟨0, env, some tr, hasToken⟩
    else if mitOK tr (intendedTag env tr extra) then
      acceptAt env tr (intendedTag env tr extra) hasToken
    else
      match tr.policy with
      | Policy.DROP => ⟨0, env, some tr, hasToken⟩
      | Policy.DEFER => acceptAt env tr (deferTag tr (intendedTag env tr extra)) hasToken
      | Policy.REPLACE =>
        if hasPending env.queue tr then
          ⟨(env.nextHandle : Int) + 1, { env with nextHandle := env.nextHandle + 1 },
           some tr, false⟩
        else ⟨0, env, some tr, hasToken⟩

/-- Claim C1 (counterexample): the claim that schedule returns 0 exactly
when the trigger is null, stop was requested with positive extra delay, or
the computed tag exceeds `stop_tag` fails for an MIT violation under the
DROP policy: with a non-null logical trigger, no stop requested, and an
intended tag `(5,0)` well below `stop_tag = (1000,0)`, a call violating the
MIT (`last_tag = (0,1)`, `mit = 10`) still returns 0. -/
theorem schedule_rejection_counterexample :
    (lf_schedule_token ⟨⟨0, 0⟩, 0, true, false, ⟨1000, 0⟩, [], 0⟩
        (some ⟨0, 0, 10, Policy.DROP, false, some ⟨0, 1⟩⟩) 5 true).handle = 0 ∧
    (Env.stop_requested ⟨⟨0, 0⟩, 0, true, false, ⟨1000, 0⟩, [], 0⟩ = false) ∧
    (tagLtB (Env.stop_tag ⟨⟨0, 0⟩, 0, true, false, ⟨1000, 0⟩, [], 0⟩)
        (intendedTag ⟨⟨0, 0⟩, 0, true, false, ⟨1000, 0⟩, [], 0⟩
          ⟨0, 0, 10, Policy.DROP, false, some ⟨0, 1⟩⟩ 5) = false) ∧
    (some (⟨0, 0, 10, Policy.DROP, false, some ⟨0, 1⟩⟩ : Trigger) ≠ none) := by
  refine ⟨by decide, rfl, by decide, by decide⟩

/-- Claim C1 (amended): a schedule call returns 0, leaves the event queue
unchanged, and decrements the supplied token's reference count exactly when
the trigger is null, stop was requested with positive extra delay, the
computed (possibly deferred) tag exceeds `stop_tag`, the MIT is violated
under DROP, or the MIT is violated under REPLACE with no pending event; in
every other case it returns a positive handle without unreferencing the
token, and it never returns -1 (no argument misuse is expressible in the
model). -/
theorem schedule_rejection_characterization (env : Env) (extra : Int)
    (hasToken : Bool) :
    ((lf_schedule_token env none extra hasToken).handle = 0 ∧
     (lf_schedule_token env none extra hasToken).env.queue = env.queue ∧
     (lf_schedule_token env none extra hasToken).tokenUnref = hasToken) ∧
    ∀ tr : Trigger,
      0 ≤ (lf_schedule_token env (some tr) extra hasToken).handle ∧
      ((lf_schedule_token env (some tr) extra hasToken).handle = 0 ↔
        ((env.stop_requested = true ∧ 0 < extra) ∨
         (mitOK tr (intendedTag env tr extra) = true ∧
           tagLtB env.stop_tag (intendedTag env tr extra) = true) ∨
         (mitOK tr (intendedTag env tr extra) = false ∧ tr.policy = Policy.DROP) ∨
         (mitOK tr (intendedTag env tr extra) = false ∧ tr.policy = Policy.DEFER ∧
           tagLtB env.stop_tag (deferTag tr (intendedTag env tr extra)) = true) ∨
         (mitOK tr (intendedTag env tr extra) = false ∧ tr.policy = Policy.REPLACE ∧
           hasPending env.queue tr = false))) ∧
      ((lf_schedule_token env (some tr) extra hasToken).handle = 0 →
        (lf_schedule_token env (some tr) extra hasToken).env.queue = env.queue ∧
        (lf_schedule_token env (some tr) extra hasToken).tokenUnref = hasToken) ∧
      (0 < (lf_schedule_token env (some tr) extra hasToken).handle →
        (lf_schedule_token env (some tr) extra hasToken).tokenUnref = false) := by
  refine ⟨⟨rfl, rfl, rfl⟩, ?_⟩
  intro tr
  by_cases hsr : (env.stop_requested && decide (0 < extra)) = true
  · have hsr2 : env.stop_requested = true ∧ 0 < extra := by
      simpa [Bool.and_eq_true] using hsr
    simp only [lf_schedule_token, if_pos hsr]
    exact ⟨by simp, iff_of_true (by simp) (Or.inl hsr2), fun _ => by simp,
      fun h => by simp at h⟩
  · have hsr2 : ¬ (env.stop_requested = true ∧ 0 < extra) := by
      simpa [Bool.and_eq_true] using hsr
    simp only [lf_schedule_token, if_neg hsr]
    by_cases hmit : mitOK tr (intendedTag env tr extra) = true
    · simp only [if_pos hmit, acceptAt]
      by_cases hstp : tagLtB env.stop_tag (intendedTag env tr extra) = true
      · simp only [if_pos hstp]
        exact ⟨by simp, iff_of_true (by simp) (Or.inr (Or.inl ⟨hmit, hstp⟩)),
          fun _ => by simp, fun h => by simp at h⟩
      · simp only [if_neg hstp]
        refine ⟨by omega, iff_of_false (by omega) ?_, fun h => absurd h (by omega),
          fun _ => by simp⟩
        rintro (h | h | h | h | h)
        · exact hsr2 h
        · exact hstp h.2
        · exact absurd h.1 (by simp [hmit])
        · exact absurd h.1 (by simp [hmit])
        · exact absurd h.1 (by simp [hmit])
    · have hmitf : mitOK tr (intendedTag env tr extra) = false := by
        simpa using hmit
      simp only [if_neg hmit]
      cases hp : tr.policy with
      | DROP =>
        exact ⟨by simp, iff_of_true (by simp) (Or.inr (Or.inr (Or.inl ⟨hmitf, by trivial⟩))),
          fun _ => by simp, fun h => by simp at h⟩
      | DEFER =>
        simp only [acceptAt]
        by_cases hstp : tagLtB env.stop_tag (deferTag tr (intendedTag env tr extra)) = true
        · simp only [if_pos hstp]
          exact ⟨by simp,
            iff_of_true (by simp) (Or.inr (Or.inr (Or.inr (Or.inl ⟨hmitf, by trivial, hstp⟩)))),
            fun _ => by simp, fun h => by simp at h⟩
        · simp only [if_neg hstp]
          refine ⟨by omega, iff_of_false (by omega) ?_, fun h => absurd h (by omega),
            fun _ => by simp⟩
          rintro (h | h | h | h | h)
          · exact hsr2 h
          · exact absurd h.1 (by simp [hmitf])
          · exact absurd h.2 (by simp)
          · exact hstp h.2.2
          · exact absurd h.2.1 (by simp)
      | REPLACE =>
        by_cases hpend : hasPending env.queue tr = true
        · simp only [if_pos hpend]
          refine ⟨by omega, iff_of_false (by omega) ?_, fun h => absurd h (by omega),
            fun _ => by simp⟩
          rintro (h | h | h | h | h)
          · exact hsr2 h
          · exact absurd h.1 (by simp [hmitf])
          · exact absurd h.2 (by simp)
          · exact absurd h.2.1 (by simp)
          · exact absurd h.2.2 (by simp [hpend])
        · have hpendf : hasPending env.queue tr = false := by simpa using hpend
          simp only [if_neg hpend]
          exact ⟨by simp,
            iff_of_true (by simp) (Or.inr (Or.inr (Or.inr (Or.inr ⟨hmitf, by trivial, hpendf⟩)))),
            fun _ => by simp, fun h => by simp at h⟩

/-- Claim C2: for a logical action with MIT `D` and policy DROP, every
accepted call records an accepted tag at least `D` beyond the previous
accepted tag (`last_tag`), and every call whose intended tag lies less than
`D` beyond the last accepted tag returns 0, unrefs its token, and pushes
nothing. -/
theorem mit_drop_spacing (env : Env) (tr : Trigger) (L : Tag) (extra : Int)
    (hasToken : Bool) (hpol : tr.policy = Policy.DROP) (hlast : tr.last_tag = some L) :
    (0 < (lf_schedule_token env (some tr) extra hasToken).handle →
      ∃ T : Tag,
        (lf_schedule_token env (some tr) extra hasToken).trig
          = some { tr with last_tag := some T } ∧
        tr.mit ≤ T.time - L.time ∧
        (lf_schedule_token env (some tr) extra hasToken).env.queue
          = env.queue ++ [⟨tr.id, T⟩]) ∧
    ((intendedTag env tr extra).time < L.time + tr.mit →
      (lf_schedule_token env (some tr) extra hasToken).handle = 0 ∧
      (lf_schedule_token env (some tr) extra hasToken).tokenUnref = hasToken ∧
      (lf_schedule_token env (some tr) extra hasToken).env.queue = env.queue) := by
  have hmitIff : mitOK tr (intendedTag env tr extra) = true ↔
      tr.mit ≤ (intendedTag env tr extra).time - L.time := by
    simp [mitOK, hlast]
  by_cases hsr : (env.stop_requested && decide (0 < extra)) = true
  · simp only [lf_schedule_token, if_pos hsr]
    exact ⟨fun h => by simp at h, fun _ => ⟨by simp, by simp, by simp⟩⟩
  · simp only [lf_schedule_token, if_neg hsr]
    by_cases hmit : mitOK tr (intendedTag env tr extra) = true
    · simp only [if_pos hmit, acceptAt]
      by_cases hstp : tagLtB env.stop_tag (intendedTag env tr extra) = true
      · simp only [if_pos hstp]
        exact ⟨fun h => by simp at h, fun _ => ⟨by simp, by simp, by simp⟩⟩
      · simp only [if_neg hstp]
        refine ⟨fun _ => ⟨intendedTag env tr extra, by simp, hmitIff.mp hmit, by simp⟩, ?_⟩
        intro hviol
        exact absurd (hmitIff.mp hmit) (by omega)
    · simp only [if_neg hmit, hpol]
      exact ⟨fun h => by simp at h, fun _ => ⟨by simp, by simp, by simp⟩⟩

/-- Claim C2 (witness): the S2 scenario call with `extra_delay = 5` against
`last_tag = (0,1)` and `mit = 10` is dropped: handle 0, token unref'd,
nothing pushed. -/
theorem mit_drop_spacing_witness :
    (lf_schedule_token ⟨⟨0, 0⟩, 0, true, false, ⟨1000, 0⟩, [], 0⟩
        (some ⟨0, 0, 10, Policy.DROP, false, some ⟨0, 1⟩⟩) 5 true).handle = 0 ∧
    (lf_schedule_token ⟨⟨0, 0⟩, 0, true, false, ⟨1000, 0⟩, [], 0⟩
        (some ⟨0, 0, 10, Policy.DROP, false, some ⟨0, 1⟩⟩) 5 true).tokenUnref = true ∧
    (lf_schedule_token ⟨⟨0, 0⟩, 0, true, false, ⟨1000, 0⟩, [], 0⟩
        (some ⟨0, 0, 10, Policy.DROP, false, some ⟨0, 1⟩⟩) 5 true).env.queue = [] :=
  (mit_drop_spacing ⟨⟨0, 0⟩, 0, true, false, ⟨1000, 0⟩, [], 0⟩
    ⟨0, 0, 10, Policy.DROP, false, some ⟨0, 1⟩⟩ ⟨0, 1⟩ 5 true rfl rfl).2 (by decide)

/-- Claim C3: for a logical action with MIT `D` and policy DEFER, a call that
passes the fail-fast checks (no stop with positive delay, computed tag within
`stop_tag`) always returns a positive handle; its accepted tag is at least
`D` beyond the previous `last_tag`, and on an MIT violation the tag is moved
to exactly `tag_add(last_tag, mit)`. -/
theorem mit_defer_spacing (env : Env) (tr : Trigger) (L : Tag) (extra : Int)
    (hasToken : Bool) (hpol : tr.policy = Policy.DEFER) (hlast : tr.last_tag = some L)
    (hsat : L.time + tr.mit ≤ FOREVER)
    (hstop1 : ¬ (env.stop_requested = true ∧ 0 < extra))
    (hstop2 : tagLtB env.stop_tag
        (if mitOK tr (intendedTag env tr extra) = true then intendedTag env tr extra
         else deferTag tr (intendedTag env tr extra)) = false) :
    0 < (lf_schedule_token env (some tr) extra hasToken).handle ∧
    ∃ T : Tag,
      (lf_schedule_token env (some tr) extra hasToken).trig
        = some { tr with last_tag := some T } ∧
      tr.mit ≤ T.time - L.time ∧
      (lf_schedule_token env (some tr) extra hasToken).env.queue
        = env.queue ++ [⟨tr.id, T⟩] ∧
      (mitOK tr (intendedTag env tr extra) = false → T = tag_add L tr.mit) := by
  have hmitIff : mitOK tr (intendedTag env tr extra) = true ↔
      tr.mit ≤ (intendedTag env tr extra).time - L.time := by
    simp [mitOK, hlast]
  have hsr : ¬ ((env.stop_requested && decide (0 < extra)) = true) := by
    simpa [Bool.and_eq_true] using hstop1
  simp only [lf_schedule_token, if_neg hsr]
  by_cases hmit : mitOK tr (intendedTag env tr extra) = true
  · rw [if_pos hmit] at hstop2
    have hstp : ¬ (tagLtB env.stop_tag (intendedTag env tr extra) = true) := by
      simp [hstop2]
    simp only [if_pos hmit, acceptAt, if_neg hstp]
    refine ⟨by omega, intendedTag env tr extra, by simp, hmitIff.mp hmit, by simp, ?_⟩
    intro hf
    exact absurd hmit (by simp [hf])
  · rw [if_neg hmit] at hstop2
    have hstp : ¬ (tagLtB env.stop_tag (deferTag tr (intendedTag env tr extra)) = true) := by
      simp [hstop2]
    have hdefer : deferTag tr (intendedTag env tr extra) = tag_add L tr.mit := by
      simp [deferTag, hlast]
    have hTdiff : tr.mit ≤ (tag_add L tr.mit).time - L.time := by
      unfold tag_add satAdd
      by_cases h0 : tr.mit = 0
      · simp [h0]
      · rw [if_neg h0]
        simp only []
        rw [min_eq_left hsat]
        omega
    simp only [if_neg hmit, hpol, acceptAt, if_neg hstp]
    refine ⟨by omega, deferTag tr (intendedTag env tr extra), by simp, ?_, by simp, ?_⟩
    · rw [hdefer]; exact hTdiff
    · intro _; exact hdefer

/-- Claim C3 (witness): the S3 scenario call with `extra_delay = 5` against
`last_tag = (0,1)` and `mit = 10` under DEFER is accepted and deferred to
`tag_add((0,1), 10) = (10, 0)`. -/
theorem mit_defer_spacing_witness :
    0 < (lf_schedule_token ⟨⟨0, 0⟩, 0, true, false, ⟨1000, 0⟩, [], 0⟩
        (some ⟨0, 0, 10, Policy.DEFER, false, some ⟨0, 1⟩⟩) 5 true).handle ∧
    ∃ T : Tag,
      (lf_schedule_token ⟨⟨0, 0⟩, 0, true, false, ⟨1000, 0⟩, [], 0⟩
          (some ⟨0, 0, 10, Policy.DEFER, false, some ⟨0, 1⟩⟩) 5 true).trig
        = some { (⟨0, 0, 10, Policy.DEFER, false, some ⟨0, 1⟩⟩ : Trigger) with
                 last_tag := some T } ∧
      (10 : Int) ≤ T.time - (0 : Int) ∧
      (lf_schedule_token ⟨⟨0, 0⟩, 0, true, false, ⟨1000, 0⟩, [], 0⟩
          (some ⟨0, 0, 10, Policy.DEFER, false, some ⟨0, 1⟩⟩) 5 true).env.queue
        = [] ++ [⟨0, T⟩] ∧
      (mitOK ⟨0, 0, 10, Policy.DEFER, false, some ⟨0, 1⟩⟩
          (intendedTag ⟨⟨0, 0⟩, 0, true, false, ⟨1000, 0⟩, [], 0⟩
            ⟨0, 0, 10, Policy.DEFER, false, some ⟨0, 1⟩⟩ 5) = false →
        T = tag_add ⟨0, 1⟩ 10) :=
  mit_defer_spacing ⟨⟨0, 0⟩, 0, true, false, ⟨1000, 0⟩, [], 0⟩
    ⟨0, 0, 10, Policy.DEFER, false, some ⟨0, 1⟩⟩ ⟨0, 1⟩ 5 true rfl rfl
    (by decide) (by decide) (by decide)

/-- Claim C4: for a logical action scheduled from a reaction at current tag
`(t, m)`, when the action's minimum delay plus the extra delay is positive
(and does not saturate) the intended event tag is
`(t + offset + extra_delay, 0)`; when that sum is zero it is `(t, m+1)`. -/
theorem logical_tag_computation (env : Env) (tr : Trigger) (extra : Int)
    (t : Int) (m : Nat) (hreact : env.fromReaction = true)
    (hcur : env.currentTag = ⟨t, m⟩) (hlog : tr.isPhysical = false) :
    (0 < tr.offset + extra → t + (tr.offset + extra) ≤ FOREVER →
      intendedTag env tr extra = ⟨t + (tr.offset + extra), 0⟩) ∧
    (tr.offset + extra = 0 → intendedTag env tr extra = ⟨t, m + 1⟩) := by
  unfold intendedTag baseTag tag_delay satAdd
  simp only [hlog, hreact, hcur, Bool.false_eq_true, if_false, if_true]
  constructor
  · intro hpos hle
    rw [if_pos hpos]
    simp [min_eq_left hle]
  · intro h0
    rw [if_neg (by omega)]

/-- Claim C4 (witness): the tag computation applied at current tag `(100,2)`
with `offset = 3`, `extra = 4`. -/
theorem logical_tag_computation_witness :
    (0 < (3 : Int) + 4 → (100 : Int) + (3 + 4) ≤ FOREVER →
      intendedTag ⟨⟨100, 2⟩, 0, true, false, ⟨1000, 0⟩, [], 0⟩
        ⟨0, 3, 0, Policy.DROP, false, none⟩ 4 = ⟨100 + (3 + 4), 0⟩) ∧
    ((3 : Int) + 4 = 0 →
      intendedTag ⟨⟨100, 2⟩, 0, true, false, ⟨1000, 0⟩, [], 0⟩
        ⟨0, 3, 0, Policy.DROP, false, none⟩ 4 = ⟨100, 2 + 1⟩) :=
  logical_tag_computation ⟨⟨100, 2⟩, 0, true, false, ⟨1000, 0⟩, [], 0⟩
    ⟨0, 3, 0, Policy.DROP, false, none⟩ 4 100 2 rfl rfl rfl

/-- Claim C5: for a physical action with offset `o` and extra delay `d`
(nonnegative sum, no saturation), the intended event time is the larger of
the current physical time and the time a logical action would receive (base
time plus `o` plus `d`), and the microstep is 0. -/
theorem physical_tag_computation (env : Env) (tr : Trigger) (extra : Int)
    (hphys : tr.isPhysical = true) (hnn : 0 ≤ tr.offset + extra)
    (hsat : (baseTag env).time + (tr.offset + extra) ≤ FOREVER) :
    intendedTag env tr extra
      = ⟨max env.physicalNow ((baseTag env).time + (tr.offset + extra)), 0⟩ := by
  unfold intendedTag tag_delay satAdd
  simp only [hphys, if_true]
  rcases lt_or_eq_of_le hnn with hpos | h0
  · rw [if_pos hpos]
    simp only []
    rw [min_eq_left hsat, max_comm]
  · rw [if_neg (by omega)]
    simp only []
    rw [max_comm]
    congr 1
    omega

/-- Claim C5 (witness): the S4 scenario, a physical action scheduled from
outside a reaction at physical time 17 with `offset = 0, extra = 0` receives
tag `(17, 0)`. -/
theorem physical_tag_computation_witness :
    intendedTag ⟨⟨10, 0⟩, 17, false, false, ⟨1000, 0⟩, [], 0⟩
        ⟨0, 0, 0, Policy.DROP, true, none⟩ 0
      = ⟨max 17 (17 + (0 + 0)), 0⟩ :=
  physical_tag_computation ⟨⟨10, 0⟩, 17, false, false, ⟨1000, 0⟩, [], 0⟩
    ⟨0, 0, 0, Policy.DROP, true, none⟩ 0 rfl (by decide) (by decide)

/-! ## Event queue and tag advancement (spec sections 4.5 and 8)

`_lf_pop_events` is declared in `reactor.h` ("Pop all events from event_q
with timestamp equal to current_time...") but not implemented in the
repository sources; the advancement loop below is modelled from spec
section 4.5 (ADVANCE/EXECUTE) and section 2 (control flow). -/

/-- The minimum tag of a queue of pending event tags, if any. -/
def minTagList : List Tag → Option Tag
  | [] => none
  | t :: ts =>
    match minTagList ts with
    | none => some t
    | some m => if tagLeB t m then some t else some m

/-- Modelled from the spec: the scheduler state seen by the advancement
loop: the pending event queue (as release tags), the current tag, and the
history of tags of popped events. -/
structure SchedState where
  queue : List Tag
  current : Tag
  popped : List Tag
deriving DecidableEq, Repr

/-- Modelled from the spec (section 4.5, EXECUTE, and `_lf_pop_events`):
select the minimum-tag event, advance `current_tag` to its tag, and pop all
events with that tag. An empty queue leaves the state unchanged. -/
def advanceStep (s : SchedState) : SchedState :=
  match minTagList s.queue with
  | none => s
  | some m =>
    { queue := s.queue.filter fun t => ! decide (t = m),
      current := m,
      popped := s.popped ++ s.queue.filter fun t => decide (t = m) }

/-- An action visible to the scheduler loop: a schedule call inserting an
event, or a tag advancement. -/
inductive Act where
  | sched (t : Tag)
  | advance
deriving DecidableEq, Repr

/-- One step of the modelled scheduler loop. -/
def stepA (s : SchedState) : Act → SchedState
  | Act.sched t => { s with queue := t :: s.queue }
  | Act.advance => advanceStep s

/-- A run of the modelled scheduler loop. -/
def runA (s : SchedState) : List Act → SchedState
  | [] => s
  | a :: rest => runA (stepA s a) rest

/-- Non-misuse runs: every scheduled event carries a tag at or after the
current tag at the moment it is scheduled. Spec section 7 declares a
dequeued event with tag less than `current_tag` a broken invariant that
aborts execution. -/
def validRun (s : SchedState) : List Act → Bool
  | [] => true
  | Act.sched t :: rest => tagLeB s.current t && validRun (stepA s (Act.sched t)) rest
  | Act.advance :: rest => validRun (advanceStep s) rest

/-- The monotonicity invariant: the current tag is at or below every queued
tag, popped tags are non-decreasing, and every popped tag is at or below
the current tag. -/
def Inv (s : SchedState) : Prop :=
  (∀ t ∈ s.queue, tagLeB s.current t = true) ∧
  List.Chain' (fun a b => tagLeB a b = true) s.popped ∧
  (∀ t ∈ s.popped, tagLeB t s.current = true)

theorem tagLeB_refl (a : Tag) : tagLeB a a = true := by simp [tagLeB]

theorem tagLeB_trans {a b c : Tag} (h1 : tagLeB a b = true)
    (h2 : tagLeB b c = true) : tagLeB a c = true := by
  simp only [tagLeB, Bool.or_eq_true, Bool.and_eq_true, decide_eq_true_eq] at *
  omega

theorem tagLeB_total (a b : Tag) : tagLeB a b = true ∨ tagLeB b a = true := by
  simp only [tagLeB, Bool.or_eq_true, Bool.and_eq_true, decide_eq_true_eq]
  omega

theorem minTagList_mem : ∀ {q : List Tag} {m : Tag},
    minTagList q = some m → m ∈ q := by
  intro q
  induction q with
  | nil => intro m h; simp [minTagList] at h
  | cons t ts ih =>
    intro m h
    simp only [minTagList] at h
    cases hm : minTagList ts with
    | none =>
      simp only [hm, Option.some.injEq] at h
      simp [h]
    | some m2 =>
      simp only [hm] at h
      by_cases hle : tagLeB t m2 = true
      · rw [if_pos hle] at h
        simp only [Option.some.injEq] at h
        simp [h]
      · rw [if_neg hle] at h
        simp only [Option.some.injEq] at h
        exact List.mem_cons_of_mem _ (h ▸ ih hm)

theorem minTagList_le : ∀ {q : List Tag} {m : Tag},
    minTagList q = some m → ∀ x ∈ q, tagLeB m x = true := by
  intro q
  induction q with
  | nil => intro m h; simp [minTagList] at h
  | cons t ts ih =>
    intro m h x hx
    simp only [minTagList] at h
    cases hm : minTagList ts with
    | none =>
      have hts : ts = [] := by
        cases ts with
        | nil => rfl
        | cons a as =>
          simp only [minTagList] at hm
          cases hm2 : minTagList as with
          | none => simp only [hm2] at hm; simp at hm
          | some mm =>
            simp only [hm2] at hm
            by_cases hle : tagLeB a mm = true
            · rw [if_pos hle] at hm; simp at hm
            · rw [if_neg hle] at hm; simp at hm
      simp only [hm, Option.some.injEq] at h
      subst hts
      rcases List.mem_singleton.mp hx with rfl
      rw [← h]
      exact tagLeB_refl x
    | some m2 =>
      simp only [hm] at h
      by_cases hle : tagLeB t m2 = true
      · rw [if_pos hle] at h
        simp only [Option.some.injEq] at h
        subst h
        rcases List.mem_cons.mp hx with rfl | hx2
        · exact tagLeB_refl x
        · exact tagLeB_trans hle (ih hm x hx2)
      · rw [if_neg hle] at h
        simp only [Option.some.injEq] at h
        subst h
        rcases List.mem_cons.mp hx with rfl | hx2
        · rcases tagLeB_total m2 x with hmx | hxm
          · exact hmx
          · exact absurd hxm hle
        · exact ih hm x hx2

theorem chain_of_const {R : Tag → Tag → Prop} {m : Tag} (hR : R m m) :
    ∀ l : List Tag, (∀ x ∈ l, x = m) → List.Chain' R l
  | [], _ => List.chain'_nil
  | [a], _ => List.chain'_singleton a
  | a :: b :: l, h => by
    rw [List.chain'_cons]
    constructor
    · rw [h a (by simp), h b (by simp)]
      exact hR
    · exact chain_of_const hR (b :: l) fun x hx => h x (List.mem_cons_of_mem _ hx)

theorem advance_inv (s : SchedState) (hInv : Inv s) :
    Inv (advanceStep s) ∧ tagLeB s.current (advanceStep s).current = true := by
  obtain ⟨h1, h2, h3⟩ := hInv
  unfold advanceStep
  cases hm : minTagList s.queue with
  | none => exact ⟨⟨h1, h2, h3⟩, tagLeB_refl _⟩
  | some m =>
    have hmem := minTagList_mem hm
    have hle := minTagList_le hm
    have hcm : tagLeB s.current m = true := h1 m hmem
    have hgroup : ∀ x ∈ s.queue.filter (fun t => decide (t = m)), x = m := by
      intro x hx
      have := (List.mem_filter.mp hx).2
      simpa using this
    refine ⟨⟨?_, ?_, ?_⟩, hcm⟩
    · intro x hx
      exact hle x (List.mem_filter.mp hx).1
    · apply List.Chain'.append h2
      · exact chain_of_const (tagLeB_refl m) _ hgroup
      · intro x hx y hy
        have hxp : x ∈ s.popped := List.mem_of_mem_getLast? hx
        have hyg : y ∈ s.queue.filter (fun t => decide (t = m)) :=
          List.mem_of_mem_head? hy
        rw [hgroup y hyg]
        exact tagLeB_trans (h3 x hxp) hcm
    · intro x hx
      rcases List.mem_append.mp hx with hxp | hxg
      · exact tagLeB_trans (h3 x hxp) hcm
      · rw [hgroup x hxg]
        exact tagLeB_refl m

theorem inv_preserved : ∀ (acts : List Act) (s : SchedState), Inv s →
    validRun s acts = true →
    Inv (runA s acts) ∧ tagLeB s.current (runA s acts).current = true := by
  intro acts
  induction acts with
  | nil => intro s hInv _; exact ⟨hInv, tagLeB_refl _⟩
  | cons a rest ih =>
    intro s hInv hv
    cases a with
    | sched t =>
      simp only [validRun, Bool.and_eq_true] at hv
      obtain ⟨hle, hv2⟩ := hv
      have hInv2 : Inv (stepA s (Act.sched t)) := by
        obtain ⟨h1, h2, h3⟩ := hInv
        refine ⟨?_, h2, h3⟩
        intro x hx
        rcases List.mem_cons.mp hx with rfl | hx2
        · exact hle
        · exact h1 x hx2
      have hr := ih (stepA s (Act.sched t)) hInv2 hv2
      exact ⟨hr.1, hr.2⟩
    | advance =>
      simp only [validRun] at hv
      have hadv := advance_inv s hInv
      have hr := ih (advanceStep s) hadv.1 hv
      exact ⟨hr.1, tagLeB_trans hadv.2 hr.2⟩

/-- Claim C8: in every non-misuse run of the modelled scheduler loop
(starting from a state satisfying the queue invariant), the tags of events
popped in sequence are non-decreasing, and the current tag is
non-decreasing over the whole run. -/
theorem monotone_tags (s : SchedState) (acts : List Act) (hInv : Inv s)
    (hv : validRun s acts = true) :
    List.Chain' (fun a b => tagLeB a b = true) (runA s acts).popped ∧
    tagLeB s.current (runA s acts).current = true :=
  ⟨(inv_preserved acts s hInv hv).1.2.1, (inv_preserved acts s hInv hv).2⟩

/-- Claim C8 (witness): a concrete run that schedules tags 5, 3 and then 7
(the last mid-run) and advances three times pops the tags in order 3, 5, 7
with a non-decreasing current tag. -/
theorem monotone_tags_witness :
    List.Chain' (fun a b => tagLeB a b = true)
      (runA ⟨[⟨5, 0⟩, ⟨3, 0⟩], ⟨0, 0⟩, []⟩
        [Act.advance, Act.sched ⟨7, 1⟩, Act.advance, Act.advance]).popped ∧
    tagLeB (⟨0, 0⟩ : Tag)
      (runA ⟨[⟨5, 0⟩, ⟨3, 0⟩], ⟨0, 0⟩, []⟩
        [Act.advance, Act.sched ⟨7, 1⟩, Act.advance, Act.advance]).current = true :=
  monotone_tags ⟨[⟨5, 0⟩, ⟨3, 0⟩], ⟨0, 0⟩, []⟩
    [Act.advance, Act.sched ⟨7, 1⟩, Act.advance, Act.advance]
    ⟨by decide, by decide, by decide⟩ (by decide)

end ReactorC
